import Mathlib

/-!
Verification of the zk-lessons-noir-psi-onchain repository.

Part 1 models the private-set-intersection (PSI) cardinality core described
in the specification (SetNormalizer, CommitmentHasher, IntersectionCounter,
CardinalityAssertion).  The Noir circuit implementing this core is not part
of the checked-in sources, so each definition is modelled from the spec and
says so in its doc comment.  Field elements are represented by an arbitrary
type with decidable equality, and the reserved sentinel is an explicit
parameter.

Part 2 embeds the Pedersen commitment helper functions (`pow`,
`pedersen_commit`) quoted verbatim in the repository documentation, and the
Solidity `CyprianVerifierApp.verifyEqual` entry point.
-/

namespace PSI

/-- Modelled from the spec: the error taxonomy of the evaluation pipeline.
`invalidInput` is raised when a RawSet element equals the sentinel;
`assertionError` when the computed cardinality differs from the expected
value.  The spec's `CapacityExceededError` is documented as a design hazard
that the naive algorithm never signals, so it has no constructor here. -/
inductive Err where
  | invalidInput
  | assertionError
  deriving DecidableEq, Repr

/-- Modelled from the spec: the result of `SetNormalizer.normalize` — the
compacted fixed-capacity sequence together with the active-element count. -/
structure NormResult (F : Type) where
  seq : List F
  activeCount : Nat
  deriving DecidableEq, Repr

variable {F : Type} [DecidableEq F]

/-- Modelled from the spec: the first-occurrence, forward-only deduplication
scan of `SetNormalizer` — element `raw[i]` is compared only against the
earlier slots `raw[j]`, `j < i` (accumulated in `seen`); it is kept exactly
when no earlier slot holds an equal value. -/
def dedupFirst (seen : List F) : List F → List F
  | [] => []
  | x :: xs =>
    if x ∈ seen then dedupFirst (seen ++ [x]) xs
    else x :: dedupFirst (seen ++ [x]) xs

/-- Modelled from the spec: `normalize(raw)` returns the kept unique
elements in first-occurrence order, padded with the sentinel `s` back to the
input capacity, together with the active count. -/
def normalize (s : F) (raw : List F) : NormResult F :=
  let act := dedupFirst [] raw
  { seq := act ++ List.replicate (raw.length - act.length) s
    activeCount := act.length }

/-- Modelled from the spec: `CommitmentHasher.commit` — slot `i` of the
normalized sequence is mapped through the one-way hash when `i < activeCount`
and to the sentinel otherwise.  The second argument counts the remaining
active slots. -/
def commit (s : F) (hash : F → F) : List F → Nat → List F
  | [], _ => []
  | _ :: xs, 0 => s :: commit s hash xs 0
  | x :: xs, n + 1 => hash x :: commit s hash xs n

/-- Modelled from the spec: `IntersectionCounter.count` — for each `i < nA`
the slot `hashedA[i]` contributes one to the cardinality exactly when it
occurs at some `j < nB` in `hashedB`; membership is boolean, so multiple
matches in B do not increase the count, and slots at index `≥ nA` or `≥ nB`
are never consulted. -/
def count (hashedA : List F) (nA : Nat) (hashedB : List F) (nB : Nat) : Nat :=
  (hashedA.take nA).countP (fun x => decide (x ∈ hashedB.take nB))

/-- Modelled from the spec: the composed pipeline cardinality
`count(commit(normalize(A)), nA, commit(normalize(B)), nB)`. -/
def pipelineCount (s : F) (hash : F → F) (A B : List F) : Nat :=
  let nrA := normalize s A
  let nrB := normalize s B
  count (commit s hash nrA.seq nrA.activeCount) nrA.activeCount
    (commit s hash nrB.seq nrB.activeCount) nrB.activeCount

/-- Modelled from the spec: the input validation stage — every element of a
RawSet must differ from the reserved sentinel. -/
def validate (s : F) (raw : List F) : Bool :=
  raw.all (fun x => decide (x ≠ s))

/-- Modelled from the spec: the full linear state machine
`Validate → Normalize(A) → Normalize(B) → Hash(A) → Hash(B) → Count →
Assert`.  `Except.ok` is the `Accepted` terminal state and carries the
public cardinality; `Except.error` is the `Rejected` terminal state. -/
def evaluate (s : F) (hash : F → F) (A B : List F) (expected : Nat) :
    Except Err Nat :=
  if validate s A && validate s B then
    let c := pipelineCount s hash A B
    if c = expected then Except.ok c else Except.error Err.assertionError
  else Except.error Err.invalidInput

end PSI

namespace Pedersen

/-- One iteration of the square-and-multiply loop of `pow` from the Pedersen
circuit: multiply the running result by the accumulator when bit `i` of the
exponent is set, and square the accumulator.  The state is the pair
`(result, acc)`. -/
def powStep {F : Type} [Field F] (exp : Nat) (st : F × F) (i : Nat) : F × F :=
  (if (exp >>> i) &&& 1 = 1 then st.1 * st.2 else st.1, st.2 * st.2)

/-- `pow(base, exp)` from the Pedersen circuit: `result = 1`, `acc = base`,
then for `i in 0..16`, if `((exp >> i) & 1) == 1` then `result *= acc`, and
`acc *= acc`.  The `u16` exponent is represented by a natural number below
`2 ^ 16`. -/
def pow {F : Type} [Field F] (base : F) (exp : Nat) : F :=
  ((List.range 16).foldl (powStep exp) ((1 : F), base)).1

/-- `pedersen_commit(message, blinding, g, h)` from the Pedersen circuit:
`g^message * h^blinding` computed with `pow`. -/
def pedersen_commit {F : Type} [Field F] (message blinding : Nat) (g h : F) :
    F :=
  let gm := pow g message
  let hr := pow h blinding
  gm * hr

end Pedersen

namespace Contract

/-- The two revert paths of `CyprianVerifierApp.verifyEqual`: the public
input array does not have length 4, or the underlying verifier rejected the
proof. -/
inductive SolError where
  | wrongPublicInputCount
  | invalidProof
  deriving DecidableEq, Repr

/-- `CyprianVerifierApp.verifyEqual` from `src/contract/CyprianVerifierApp.sol`:
`proofResult = verifier.verify(proof, publicInputs)`;
`require(publicInputs.length == 4)`; `require(proofResult)`;
`verifiedCount++`; `return proofResult`.  The external verifier is a
parameter returning a boolean, `bytes`/`bytes32` entries are abstracted as
naturals, a revert is `Except.error` (discarding the state, as a revert
rolls it back), and success returns the boolean result together with the
updated `verifiedCount`. -/
def verifyEqual (verify : List Nat → List Nat → Bool) (proof : List Nat)
    (publicInputs : List Nat) (verifiedCount : Nat) :
    Except SolError (Bool × Nat) :=
  let proofResult := verify proof publicInputs
  if publicInputs.length = 4 then
    if proofResult then Except.ok (proofResult, verifiedCount + 1)
    else Except.error SolError.invalidProof
  else Except.error SolError.wrongPublicInputCount

end Contract

namespace PSI

variable {F : Type} [DecidableEq F]

theorem mem_dedupFirst {a : F} (l : List F) :
    ∀ seen, a ∈ dedupFirst seen l ↔ a ∈ l ∧ a ∉ seen := by
  induction l with
  | nil => intro seen; simp [dedupFirst]
  | cons x xs ih =>
    intro seen
    simp only [dedupFirst]
    by_cases hx : x ∈ seen
    · rw [if_pos hx, ih]
      simp only [List.mem_append, List.mem_cons, List.not_mem_nil, or_false]
      constructor
      · rintro ⟨h1, h2⟩
        exact ⟨Or.inr h1, fun hs => h2 (Or.inl hs)⟩
      · rintro ⟨h1, h2⟩
        rcases h1 with rfl | h1
        · exact absurd hx h2
        · refine ⟨h1, ?_⟩
          rintro (hs | rfl)
          · exact h2 hs
          · exact h2 hx
    · rw [if_neg hx]
      simp only [List.mem_cons, ih, List.mem_append, List.not_mem_nil, or_false]
      constructor
      · rintro (rfl | ⟨h1, h2⟩)
        · exact ⟨Or.inl rfl, hx⟩
        · exact ⟨Or.inr h1, fun hs => h2 (Or.inl hs)⟩
      · rintro ⟨h1, h2⟩
        by_cases hax : a = x
        · exact Or.inl hax
        · rcases h1 with rfl | h1
          · exact absurd rfl hax
          · refine Or.inr ⟨h1, ?_⟩
            rintro (hs | rfl)
            · exact h2 hs
            · exact hax rfl

theorem nodup_dedupFirst (l : List F) : ∀ seen, (dedupFirst seen l).Nodup := by
  induction l with
  | nil => intro seen; simp [dedupFirst]
  | cons x xs ih =>
    intro seen
    simp only [dedupFirst]
    by_cases hx : x ∈ seen
    · rw [if_pos hx]; exact ih _
    · rw [if_neg hx]
      refine List.nodup_cons.mpr ⟨?_, ih _⟩
      intro hmem
      rcases (mem_dedupFirst xs _).mp hmem with ⟨-, h2⟩
      exact h2 (List.mem_append.mpr (Or.inr (List.mem_singleton.mpr rfl)))

theorem dedupFirst_sublist (l : List F) :
    ∀ seen, (dedupFirst seen l).Sublist l := by
  induction l with
  | nil => intro seen; simp [dedupFirst]
  | cons x xs ih =>
    intro seen
    simp only [dedupFirst]
    by_cases hx : x ∈ seen
    · rw [if_pos hx]; exact (ih _).cons x
    · rw [if_neg hx]; exact (ih _).cons₂ x

theorem dedupFirst_length_le (l seen : List F) :
    (dedupFirst seen l).length ≤ l.length :=
  (dedupFirst_sublist l seen).length_le

theorem toFinset_dedupFirst (l : List F) :
    (dedupFirst [] l).toFinset = l.toFinset := by
  ext a
  simp [List.mem_toFinset, mem_dedupFirst]

theorem dedupFirst_eq_self (l : List F) :
    ∀ seen, l.Nodup → (∀ x ∈ l, x ∉ seen) → dedupFirst seen l = l := by
  induction l with
  | nil => intro seen _ _; rfl
  | cons x xs ih =>
    intro seen hnd hdisj
    simp only [dedupFirst]
    rw [if_neg (hdisj x (List.mem_cons_self x xs))]
    congr 1
    refine ih _ (List.nodup_cons.mp hnd).2 ?_
    intro y hy hmem
    rcases List.mem_append.mp hmem with hs | hx1
    · exact hdisj y (List.mem_cons_of_mem _ hy) hs
    · rw [List.mem_singleton] at hx1
      subst hx1
      exact (List.nodup_cons.mp hnd).1 hy

theorem dedupFirst_eq_nil (l : List F) :
    ∀ seen, (∀ x ∈ l, x ∈ seen) → dedupFirst seen l = [] := by
  induction l with
  | nil => intro _ _; rfl
  | cons x xs ih =>
    intro seen hall
    simp only [dedupFirst]
    rw [if_pos (hall x (List.mem_cons_self x xs))]
    exact ih _ fun y hy =>
      List.mem_append.mpr (Or.inl (hall y (List.mem_cons_of_mem _ hy)))

theorem dedupFirst_append (l₁ l₂ : List F) :
    ∀ seen, dedupFirst seen (l₁ ++ l₂) =
      dedupFirst seen l₁ ++ dedupFirst (seen ++ l₁) l₂ := by
  induction l₁ with
  | nil => intro seen; simp [dedupFirst]
  | cons x xs ih =>
    intro seen
    by_cases hx : x ∈ seen
    · simp only [List.cons_append, dedupFirst, List.append_eq, if_pos hx, ih,
        List.append_assoc, List.singleton_append, List.nil_append]
    · simp only [List.cons_append, dedupFirst, List.append_eq, if_neg hx, ih,
        List.append_assoc, List.singleton_append, List.nil_append]

theorem dedupFirst_pairwise_indexOf (l : List F) :
    ∀ seen, (dedupFirst seen l).Pairwise
      (fun a b => List.indexOf a l < List.indexOf b l) := by
  induction l with
  | nil => intro seen; simp [dedupFirst]
  | cons x xs ih =>
    intro seen
    have hne : ∀ {a : F} {s2 : List F}, a ∈ dedupFirst (s2 ++ [x]) xs → a ≠ x := by
      intro a s2 ha rfl
      exact ((mem_dedupFirst xs _).mp ha).2
        (List.mem_append.mpr (Or.inr (List.mem_singleton.mpr rfl)))
    have htail : ∀ s2 : List F, (dedupFirst (s2 ++ [x]) xs).Pairwise
        (fun a b => List.indexOf a (x :: xs) < List.indexOf b (x :: xs)) := by
      intro s2
      refine List.Pairwise.imp_of_mem ?_ (ih (s2 ++ [x]))
      intro a b ha hb hab
      rw [List.indexOf_cons_ne _ (Ne.symm (hne ha)),
        List.indexOf_cons_ne _ (Ne.symm (hne hb))]
      exact Nat.succ_lt_succ hab
    simp only [dedupFirst]
    by_cases hx : x ∈ seen
    · rw [if_pos hx]
      exact htail seen
    · rw [if_neg hx]
      refine List.pairwise_cons.mpr ⟨?_, htail seen⟩
      intro b hb
      rw [List.indexOf_cons_self, List.indexOf_cons_ne _ (Ne.symm (hne hb))]
      exact Nat.succ_pos _

theorem commit_zero (s : F) (hash : F → F) (l : List F) :
    commit s hash l 0 = l.map (fun _ => s) := by
  induction l with
  | nil => rfl
  | cons x xs ih => simp [commit, ih]

theorem commit_append (s : F) (hash : F → F) (a : List F) :
    ∀ b, commit s hash (a ++ b) a.length = a.map hash ++ commit s hash b 0 := by
  induction a with
  | nil => intro b; simp [commit_zero]
  | cons x xs ih => intro b; simp [commit, ih]

theorem normalize_seq (s : F) (raw : List F) :
    (normalize s raw).seq = dedupFirst [] raw ++
      List.replicate (raw.length - (dedupFirst [] raw).length) s := rfl

theorem normalize_activeCount (s : F) (raw : List F) :
    (normalize s raw).activeCount = (dedupFirst [] raw).length := rfl

theorem pipelineCount_eq_countP (s : F) (hash : F → F) (A B : List F) :
    pipelineCount s hash A B =
      (dedupFirst [] A).countP
        (fun x => decide (hash x ∈ (dedupFirst [] B).map hash)) := by
  rw [pipelineCount, normalize_seq, normalize_activeCount, normalize_seq,
    normalize_activeCount, commit_append, commit_append, count,
    List.take_left' (by rw [List.length_map]),
    List.take_left' (by rw [List.length_map]), List.countP_map]
  rfl

theorem pipelineCount_eq_card_inter (s : F) (hash : F → F)
    (hinj : Function.Injective hash) (A B : List F) :
    pipelineCount s hash A B = (A.toFinset ∩ B.toFinset).card := by
  rw [pipelineCount_eq_countP]
  have h1 : (dedupFirst [] A).countP
        (fun x => decide (hash x ∈ (dedupFirst [] B).map hash)) =
      (dedupFirst [] A).countP (fun x => decide (x ∈ B)) := by
    refine List.countP_congr ?_
    intro x _
    simp only [decide_eq_true_eq, List.mem_map]
    constructor
    · rintro ⟨a, ha, heq⟩
      rw [← hinj heq]
      exact ((mem_dedupFirst B []).mp ha).1
    · intro hxB
      exact ⟨x, (mem_dedupFirst B []).mpr ⟨hxB, List.not_mem_nil x⟩, rfl⟩
  rw [h1, List.countP_eq_length_filter,
    ← List.toFinset_card_of_nodup (List.Nodup.filter _ (nodup_dedupFirst A [])),
    List.toFinset_filter]
  congr 1
  ext a
  simp [mem_dedupFirst]

theorem pipelineCount_le_min (s : F) (hash : F → F)
    (hinj : Function.Injective hash) (A B : List F) :
    pipelineCount s hash A B ≤
      min (normalize s A).activeCount (normalize s B).activeCount := by
  rw [Nat.le_min]
  constructor
  · rw [pipelineCount_eq_countP, normalize_activeCount]
    exact List.countP_le_length _
  · rw [pipelineCount_eq_card_inter s hash hinj, normalize_activeCount]
    calc (A.toFinset ∩ B.toFinset).card
        ≤ B.toFinset.card := Finset.card_le_card Finset.inter_subset_right
      _ = (dedupFirst [] B).toFinset.card := by rw [toFinset_dedupFirst]
      _ = (dedupFirst [] B).length :=
        List.toFinset_card_of_nodup (nodup_dedupFirst B [])

theorem validate_eq_true (s : F) (l : List F) :
    validate s l = true ↔ s ∉ l := by
  simp only [validate, List.all_eq_true, decide_eq_true_eq]
  constructor
  · intro h hs
    exact h s hs rfl
  · intro h x hx hxs
    exact h (hxs ▸ hx)

theorem evaluate_invalid (s : F) (hash : F → F) (A B : List F)
    (expected : Nat) (h : s ∈ A ∨ s ∈ B) :
    evaluate s hash A B expected = Except.error Err.invalidInput := by
  have hv : (validate s A && validate s B) = false := by
    rcases h with h | h
    · have hA : ¬ validate s A = true := fun hc => (validate_eq_true s A).mp hc h
      simp [Bool.eq_false_iff.mpr hA]
    · have hB : ¬ validate s B = true := fun hc => (validate_eq_true s B).mp hc h
      simp [Bool.eq_false_iff.mpr hB]
  simp [evaluate, hv]

theorem evaluate_valid (s : F) (hash : F → F) (A B : List F) (expected : Nat)
    (hA : s ∉ A) (hB : s ∉ B) :
    evaluate s hash A B expected =
      if pipelineCount s hash A B = expected then
        Except.ok (pipelineCount s hash A B)
      else Except.error Err.assertionError := by
  have h1 : validate s A = true := (validate_eq_true s A).mpr hA
  have h2 : validate s B = true := (validate_eq_true s B).mpr hB
  simp [evaluate, h1, h2]

theorem normalize_of_nodup (s : F) (raw : List F) (hnd : raw.Nodup) :
    normalize s raw = ⟨raw, raw.length⟩ := by
  have hd : dedupFirst [] raw = raw :=
    dedupFirst_eq_self raw [] hnd (fun x _ => List.not_mem_nil x)
  rw [normalize]
  simp [hd]

theorem dedupFirst_replicate (s : F) (d : List F) (hs : s ∉ d) (m : Nat) :
    dedupFirst d (List.replicate m s) = if m = 0 then [] else [s] := by
  cases m with
  | zero => rfl
  | succ k =>
    rw [List.replicate_succ]
    simp only [dedupFirst, if_neg hs, Nat.succ_ne_zero, if_false]
    congr 1
    exact dedupFirst_eq_nil _ _ fun y hy =>
      List.mem_append.mpr
        (Or.inr (List.mem_singleton.mpr (List.eq_of_mem_replicate hy)))

/-- C1: for every pair of sentinel-free RawSets of the same capacity, and
any injective (idealised collision-free) one-way hash, the pipeline
cardinality `count(hash(normalize(A)), nA, hash(normalize(B)), nB)` equals
the number of distinct values of A that also occur in B, each distinct
element of A counted at most once. -/
theorem count_correct (s : F) (hash : F → F) (hinj : Function.Injective hash)
    (A B : List F) (hlen : A.length = B.length) (hA : s ∉ A) (hB : s ∉ B) :
    pipelineCount s hash A B = (A.toFinset ∩ B.toFinset).card :=
  pipelineCount_eq_card_inter s hash hinj A B

/-- C2: for every pair of sentinel-free RawSets and any injective hash, the
pipeline cardinality lies between 0 and the minimum of the two active
counts produced by normalization. -/
theorem count_range (s : F) (hash : F → F) (hinj : Function.Injective hash)
    (A B : List F) (hA : s ∉ A) (hB : s ∉ B) :
    0 ≤ pipelineCount s hash A B ∧
      pipelineCount s hash A B ≤
        min (normalize s A).activeCount (normalize s B).activeCount :=
  ⟨Nat.zero_le _, pipelineCount_le_min s hash hinj A B⟩

/-- C3: if either input RawSet contains the reserved sentinel, the
evaluation fails with `InvalidInputError`; the result does not depend on
the hash function or the expected value, which shows the rejection happens
before normalization, hashing and counting. -/
theorem sentinel_rejected (s : F) (A B : List F) (h : s ∈ A ∨ s ∈ B) :
    ∀ (hash : F → F) (expected : Nat),
      evaluate s hash A B expected = Except.error Err.invalidInput :=
  fun hash expected => evaluate_invalid s hash A B expected h

/-- C4: on valid (sentinel-free) inputs the evaluation fails with
`AssertionError` exactly when the computed cardinality differs from the
expected value, and is Accepted (with the cardinality as public output)
exactly when they are equal. -/
theorem assertion_iff (s : F) (hash : F → F) (A B : List F) (expected : Nat)
    (hA : s ∉ A) (hB : s ∉ B) :
    (evaluate s hash A B expected = Except.error Err.assertionError ↔
      pipelineCount s hash A B ≠ expected) ∧
    (evaluate s hash A B expected = Except.ok (pipelineCount s hash A B) ↔
      pipelineCount s hash A B = expected) := by
  rw [evaluate_valid s hash A B expected hA hB]
  by_cases hc : pipelineCount s hash A B = expected
  · rw [if_pos hc]
    simp [hc]
  · rw [if_neg hc]
    simp [hc]

/-- C5: for every sentinel-free RawSet the output of `normalize` satisfies
the NormalizedSet invariant: the active count is at most the capacity, the
sequence keeps the capacity, the active prefix is duplicate-free, its
values appear in order of first occurrence in the RawSet (indices of first
occurrence are strictly increasing) and come from the RawSet, and every
slot at index at least `activeCount` holds the sentinel. -/
theorem normalize_invariant (s : F) (raw : List F) (hs : s ∉ raw) :
    (normalize s raw).activeCount ≤ raw.length ∧
    (normalize s raw).seq.length = raw.length ∧
    ((normalize s raw).seq.take (normalize s raw).activeCount).Nodup ∧
    ((normalize s raw).seq.take (normalize s raw).activeCount).Pairwise
      (fun a b => List.indexOf a raw < List.indexOf b raw) ∧
    (∀ a ∈ (normalize s raw).seq.take (normalize s raw).activeCount,
      a ∈ raw) ∧
    (normalize s raw).seq.drop (normalize s raw).activeCount =
      List.replicate (raw.length - (normalize s raw).activeCount) s := by
  have htake : (normalize s raw).seq.take (normalize s raw).activeCount =
      dedupFirst [] raw := by
    rw [normalize_seq, normalize_activeCount]
    exact List.take_left' rfl
  refine ⟨?_, ?_, ?_, ?_, ?_, ?_⟩
  · rw [normalize_activeCount]
    exact dedupFirst_length_le raw []
  · rw [normalize_seq, List.length_append, List.length_replicate]
    exact Nat.add_sub_cancel' (dedupFirst_length_le raw [])
  · rw [htake]
    exact nodup_dedupFirst raw []
  · rw [htake]
    exact dedupFirst_pairwise_indexOf raw []
  · rw [htake]
    intro a ha
    exact ((mem_dedupFirst raw []).mp ha).1
  · rw [normalize_seq, normalize_activeCount]
    exact List.drop_left' rfl

/-- C6: the two stated edge cases of `normalize` — a nonempty all-equal
RawSet normalizes to active count 1, and a duplicate-free RawSet normalizes
to active count N with the output sequence equal to the input in order. -/
theorem normalize_edge_cases (s : F) :
    (∀ raw : List F, raw ≠ [] → (∀ x ∈ raw, ∀ y ∈ raw, x = y) →
      (normalize s raw).activeCount = 1) ∧
    (∀ raw : List F, raw.Nodup →
      (normalize s raw).activeCount = raw.length ∧
        (normalize s raw).seq = raw) := by
  constructor
  · intro raw hne hall
    cases raw with
    | nil => exact absurd rfl hne
    | cons x xs =>
      have hxs : dedupFirst [x] xs = [] := by
        refine dedupFirst_eq_nil xs [x] fun y hy => ?_
        rw [hall y (List.mem_cons_of_mem _ hy) x (List.mem_cons_self x xs)]
        exact List.mem_singleton.mpr rfl
      rw [normalize_activeCount]
      simp only [dedupFirst]
      rw [if_neg (List.not_mem_nil x), List.nil_append, hxs]
      rfl
  · intro raw hnd
    rw [normalize_of_nodup s raw hnd]
    exact ⟨rfl, rfl⟩

/-- C7 (counterexample): re-normalizing the padded sequence produced by
`normalize` does not preserve the active count: with sentinel 0 and RawSet
`[1, 1]`, `normalize` yields sequence `[1, 0]` with active count 1, but
normalizing `[1, 0]` treats the sentinel padding as a fresh unique element
and yields active count 2.  Hence re-normalization does not yield the same
active prefix and the same active count as claimed. -/
theorem normalize_idempotent_counterexample :
    ¬ (((normalize (0 : Nat) ((normalize 0 [1, 1]).seq)).seq.take
          ((normalize (0 : Nat) [1, 1]).activeCount) =
        (normalize (0 : Nat) [1, 1]).seq.take
          ((normalize (0 : Nat) [1, 1]).activeCount)) ∧
      (normalize (0 : Nat) ((normalize 0 [1, 1]).seq)).activeCount =
        (normalize (0 : Nat) [1, 1]).activeCount) := by
  decide

/-- C7 (amended): for every sentinel-free RawSet x, re-running `normalize`
on the sequence produced by `normalize x` leaves the active prefix (the
first `activeCount` slots) unchanged; the active count itself (and with it
the whole result) is preserved when x is duplicate-free, while any sentinel
padding is counted as one additional unique element otherwise. -/
theorem normalize_idempotent_amended (s : F) (x : List F) (hs : s ∉ x) :
    ((normalize s ((normalize s x).seq)).seq.take
        ((normalize s x).activeCount) =
      (normalize s x).seq.take ((normalize s x).activeCount)) ∧
    (x.Nodup → normalize s ((normalize s x).seq) = normalize s x) := by
  constructor
  · have hnd : (dedupFirst [] x).Nodup := nodup_dedupFirst x []
    have hdd : dedupFirst [] (dedupFirst [] x) = dedupFirst [] x :=
      dedupFirst_eq_self _ [] hnd fun y _ => List.not_mem_nil y
    have hR : ((normalize s x).seq.take ((normalize s x).activeCount)) =
        dedupFirst [] x := by
      rw [normalize_seq, normalize_activeCount]
      exact List.take_left' rfl
    have hL : (normalize s ((normalize s x).seq)).seq.take
        ((normalize s x).activeCount) = dedupFirst [] x := by
      rw [normalize_seq s ((normalize s x).seq), normalize_activeCount,
        normalize_seq s x, dedupFirst_append, List.nil_append, hdd,
        List.append_assoc]
      exact List.take_left' rfl
    rw [hL, hR]
  · intro hnd
    rw [normalize_of_nodup s x hnd]
    exact normalize_of_nodup s x hnd

/-- C8: with an injective (idealised collision-free) hash, the pipeline
cardinality is symmetric on duplicate-free sentinel-free RawSets. -/
theorem count_symm (s : F) (hash : F → F) (hinj : Function.Injective hash)
    (A B : List F) (hlen : A.length = B.length) (hA : s ∉ A) (hB : s ∉ B)
    (hndA : A.Nodup) (hndB : B.Nodup) :
    pipelineCount s hash A B = pipelineCount s hash B A := by
  rw [pipelineCount_eq_card_inter s hash hinj,
    pipelineCount_eq_card_inter s hash hinj, Finset.inter_comm]

end PSI

namespace Pedersen

theorem powStep_range {F : Type} [Field F] (base : F) (exp : Nat) :
    ∀ k, (List.range k).foldl (powStep exp) ((1 : F), base) =
      (base ^ (exp % 2 ^ k), base ^ 2 ^ k) := by
  intro k
  induction k with
  | zero => simp [Nat.mod_one]
  | succ k ih =>
    rw [List.range_succ, List.foldl_append, ih, List.foldl_cons,
      List.foldl_nil, powStep]
    have hbit : (exp >>> k) &&& 1 = exp / 2 ^ k % 2 := by
      rw [Nat.and_one_is_mod, Nat.shiftRight_eq_div_pow]
    have hmod : exp % 2 ^ (k + 1) = exp % 2 ^ k + 2 ^ k * (exp / 2 ^ k % 2) := by
      rw [pow_succ]
      exact Nat.mod_mul
    have hsq : (base ^ 2 ^ k) * base ^ 2 ^ k = base ^ 2 ^ (k + 1) := by
      rw [← pow_add, pow_succ, mul_two]
    rcases Nat.mod_two_eq_zero_or_one (exp / 2 ^ k) with hp | hp
    · rw [hbit, hp, hmod, hp, if_neg (by decide : ¬ (0 = 1))]
      simp [hsq]
    · rw [hbit, hp, hmod, hp, if_pos rfl]
      rw [← pow_add]
      simp [hsq]

/-- C10: the square-and-multiply `pow` of the Pedersen circuit computes
exponentiation in the field for every 16-bit exponent, and consequently
`pedersen_commit` computes `g^message * h^blinding` for all 16-bit
`message` and `blinding` and all field elements `g` and `h`. -/
theorem pow_pedersen_commit_correct {F : Type} [Field F] :
    (∀ (base : F) (exp : Nat), exp < 65536 → pow base exp = base ^ exp) ∧
    (∀ (g h : F) (message blinding : Nat),
      message < 65536 → blinding < 65536 →
      pedersen_commit message blinding g h = g ^ message * h ^ blinding) := by
  have hp : ∀ (base : F) (exp : Nat), exp < 65536 → pow base exp = base ^ exp := by
    intro base exp hexp
    have h16 : (65536 : Nat) = 2 ^ 16 := by norm_num
    rw [pow, powStep_range base exp 16]
    rw [show exp % 2 ^ 16 = exp from Nat.mod_eq_of_lt (h16 ▸ hexp)]
  refine ⟨hp, ?_⟩
  intro g h m b hm hb
  rw [pedersen_commit]
  rw [hp g m hm, hp h b hb]

end Pedersen

namespace Contract

theorem verifyEqual_eq (verify : List Nat → List Nat → Bool)
    (proof publicInputs : List Nat) (st : Nat) :
    verifyEqual verify proof publicInputs st =
      if publicInputs.length = 4 then
        (if verify proof publicInputs then Except.ok (true, st + 1)
         else Except.error SolError.invalidProof)
      else Except.error SolError.wrongPublicInputCount := by
  rw [verifyEqual]
  by_cases hres : verify proof publicInputs = true <;> simp [hres]

/-- C9: `CyprianVerifierApp.verifyEqual` either reverts or returns `true`:
it reverts (so `verifiedCount` is rolled back unchanged) whenever the
public input array does not have length 4 or the underlying verifier
returns `false`; otherwise it returns `true` and increments `verifiedCount`
by exactly 1.  Any successful return therefore carries `true` and the
incremented counter. -/
theorem verifyEqual_spec (verify : List Nat → List Nat → Bool)
    (proof publicInputs : List Nat) (st : Nat) :
    ((publicInputs.length ≠ 4 ∨ verify proof publicInputs = false) →
      ∃ e, verifyEqual verify proof publicInputs st = Except.error e) ∧
    (publicInputs.length = 4 → verify proof publicInputs = true →
      verifyEqual verify proof publicInputs st = Except.ok (true, st + 1)) ∧
    (∀ (b : Bool) (st2 : Nat),
      verifyEqual verify proof publicInputs st = Except.ok (b, st2) →
      b = true ∧ st2 = st + 1) := by
  refine ⟨?_, ?_, ?_⟩
  · rintro (hlen | hres)
    · exact ⟨SolError.wrongPublicInputCount, by simp [verifyEqual, hlen]⟩
    · by_cases hlen : publicInputs.length = 4
      · exact ⟨SolError.invalidProof, by simp [verifyEqual, hlen, hres]⟩
      · exact ⟨SolError.wrongPublicInputCount, by simp [verifyEqual, hlen]⟩
  · intro hlen hres
    simp [verifyEqual, hlen, hres]
  · intro b st2 hok
    rw [verifyEqual_eq] at hok
    by_cases hlen : publicInputs.length = 4
    · rw [if_pos hlen] at hok
      by_cases hres : verify proof publicInputs = true
      · rw [if_pos hres] at hok
        have hpair : ((true, st + 1) : Bool × Nat) = (b, st2) :=
          Except.ok.inj hok
        exact ⟨(Prod.ext_iff.mp hpair).1.symm, (Prod.ext_iff.mp hpair).2.symm⟩
      · rw [if_neg hres] at hok
        exact absurd hok (by simp)
    · rw [if_neg hlen] at hok
      exact absurd hok (by simp)

end Contract

namespace PSI

theorem count_correct_witness :
    pipelineCount 0 Nat.succ [1, 2, 3, 4] [3, 4, 5, 6] =
      (([1, 2, 3, 4] : List Nat).toFinset ∩
        ([3, 4, 5, 6] : List Nat).toFinset).card :=
  count_correct 0 Nat.succ Nat.succ_injective [1, 2, 3, 4] [3, 4, 5, 6] rfl
    (by decide) (by decide)

theorem count_range_witness :
    0 ≤ pipelineCount 0 Nat.succ [1, 1, 2, 3] [2, 2, 3, 4] ∧
      pipelineCount 0 Nat.succ [1, 1, 2, 3] [2, 2, 3, 4] ≤
        min (normalize (0 : Nat) [1, 1, 2, 3]).activeCount
          (normalize (0 : Nat) [2, 2, 3, 4]).activeCount :=
  count_range 0 Nat.succ Nat.succ_injective [1, 1, 2, 3] [2, 2, 3, 4]
    (by decide) (by decide)

theorem sentinel_rejected_witness :
    evaluate 0 Nat.succ [0, 2] [1, 2] 5 = Except.error Err.invalidInput :=
  sentinel_rejected 0 [0, 2] [1, 2] (Or.inl (by decide)) Nat.succ 5

theorem assertion_iff_witness :
    (evaluate 0 Nat.succ [1, 2, 3, 4] [3, 4, 5, 6] 3 =
        Except.error Err.assertionError ↔
      pipelineCount 0 Nat.succ [1, 2, 3, 4] [3, 4, 5, 6] ≠ 3) ∧
    (evaluate 0 Nat.succ [1, 2, 3, 4] [3, 4, 5, 6] 3 =
        Except.ok (pipelineCount 0 Nat.succ [1, 2, 3, 4] [3, 4, 5, 6]) ↔
      pipelineCount 0 Nat.succ [1, 2, 3, 4] [3, 4, 5, 6] = 3) :=
  assertion_iff 0 Nat.succ [1, 2, 3, 4] [3, 4, 5, 6] 3 (by decide) (by decide)

theorem normalize_invariant_witness :
    (normalize (0 : Nat) [1, 1, 2, 3]).activeCount ≤
      ([1, 1, 2, 3] : List Nat).length ∧
    (normalize (0 : Nat) [1, 1, 2, 3]).seq.length =
      ([1, 1, 2, 3] : List Nat).length ∧
    ((normalize (0 : Nat) [1, 1, 2, 3]).seq.take
      (normalize (0 : Nat) [1, 1, 2, 3]).activeCount).Nodup ∧
    ((normalize (0 : Nat) [1, 1, 2, 3]).seq.take
      (normalize (0 : Nat) [1, 1, 2, 3]).activeCount).Pairwise
      (fun a b => List.indexOf a [1, 1, 2, 3] < List.indexOf b [1, 1, 2, 3]) ∧
    (∀ a ∈ (normalize (0 : Nat) [1, 1, 2, 3]).seq.take
      (normalize (0 : Nat) [1, 1, 2, 3]).activeCount, a ∈ [1, 1, 2, 3]) ∧
    (normalize (0 : Nat) [1, 1, 2, 3]).seq.drop
        (normalize (0 : Nat) [1, 1, 2, 3]).activeCount =
      List.replicate
        (([1, 1, 2, 3] : List Nat).length -
          (normalize (0 : Nat) [1, 1, 2, 3]).activeCount) 0 :=
  normalize_invariant 0 [1, 1, 2, 3] (by decide)

theorem normalize_edge_cases_witness :
    (normalize (0 : Nat) [7, 7, 7]).activeCount = 1 ∧
      (normalize (0 : Nat) [1, 2, 3]).seq = [1, 2, 3] :=
  ⟨(normalize_edge_cases 0).1 [7, 7, 7] (by decide) (by decide),
    ((normalize_edge_cases 0).2 [1, 2, 3] (by decide)).2⟩

theorem normalize_idempotent_amended_witness :
    ((normalize (0 : Nat) ((normalize 0 [1, 1, 2, 3]).seq)).seq.take
        ((normalize (0 : Nat) [1, 1, 2, 3]).activeCount) =
      (normalize (0 : Nat) [1, 1, 2, 3]).seq.take
        ((normalize (0 : Nat) [1, 1, 2, 3]).activeCount)) ∧
    (([1, 1, 2, 3] : List Nat).Nodup →
      normalize 0 ((normalize (0 : Nat) [1, 1, 2, 3]).seq) =
        normalize 0 [1, 1, 2, 3]) :=
  normalize_idempotent_amended 0 [1, 1, 2, 3] (by decide)

theorem count_symm_witness :
    pipelineCount 0 Nat.succ [9, 10, 11, 12] [12, 11, 10, 9] =
      pipelineCount 0 Nat.succ [12, 11, 10, 9] [9, 10, 11, 12] :=
  count_symm 0 Nat.succ Nat.succ_injective [9, 10, 11, 12] [12, 11, 10, 9]
    rfl (by decide) (by decide) (by decide) (by decide)

end PSI

theorem pow_pedersen_commit_witness :
    Pedersen.pow (3 : ℚ) 10 = (3 : ℚ) ^ 10 ∧
      Pedersen.pedersen_commit 5 7 (3 : ℚ) 4 = (3 : ℚ) ^ 5 * (4 : ℚ) ^ 7 :=
  ⟨Pedersen.pow_pedersen_commit_correct.1 3 10 (by decide),
    Pedersen.pow_pedersen_commit_correct.2 3 4 5 7 (by decide) (by decide)⟩

theorem verifyEqual_spec_witness :
    Contract.verifyEqual (fun _ _ => true) [] [1, 2, 3, 4] 0 =
      Except.ok (true, 1) :=
  (Contract.verifyEqual_spec (fun _ _ => true) [] [1, 2, 3, 4] 0).2.1 rfl rfl
